import Mathlib

/-!
Verification development for the DocCraft AI repository.

Strings from the TypeScript source are modelled as `List Char` (the
sequence of code points after `TextDecoder` decoding).  Each definition
below is a direct translation of a function or code block of the
repository; the theorems settle the specification's claims about them.
-/

namespace DocCraft

/-- Whitespace characters stripped by JavaScript `String.prototype.trim`
(the common ASCII subset: space, tab, line feed, carriage return,
vertical tab, form feed). -/
def isWsChar (c : Char) : Bool :=
  c = ' ' || c = '\t' || c = '\n' || c = '\r' || c = '\x0b' || c = '\x0c'

/-- JavaScript `s.trim()`: drop whitespace from both ends. -/
def trim (s : List Char) : List Char :=
  ((s.dropWhile isWsChar).reverse.dropWhile isWsChar).reverse

/-- The literal start-of-replacement marker used in `server/routes.ts`
and `ChatPanel.tsx`. -/
def startMarker : List Char := "<<<DOCUMENT_UPDATE>>>".toList

/-- The literal end-of-replacement marker. -/
def endMarker : List Char := "<<<END_UPDATE>>>".toList

/-- Index of the first occurrence of `pat` in `s` (`none` if there is
none); the position semantics of a leftmost regex / `String.indexOf`
search. -/
def firstIdx (pat : List Char) : List Char → Option Nat
  | [] => if pat.isPrefixOf ([] : List Char) then some 0 else none
  | c :: t =>
    if pat.isPrefixOf (c :: t) then some 0
    else (firstIdx pat t).map (· + 1)

/-- `fullResponse.match(/<<<DOCUMENT_UPDATE>>>([\s\S]*?)<<<END_UPDATE>>>/)`
followed by `match[1].trim()` (server/routes.ts): the leftmost start
marker with an end marker after it delimits the extracted replacement;
the non-greedy interior ends at the first end marker after the start
marker. -/
def extractUpdate (s : List Char) : Option (List Char) :=
  match firstIdx startMarker s with
  | none => none
  | some i =>
    match firstIdx endMarker (s.drop (i + startMarker.length)) with
    | none => none
    | some j => some (trim ((s.drop (i + startMarker.length)).take j))

/-- One global-replace pass of
`content.replace(/<<<DOCUMENT_UPDATE>>>[\s\S]*?<<<END_UPDATE>>>/g, "")`
(ChatPanel.tsx `cleanContent`), written with explicit fuel so that it is
structurally recursive; every iteration consumes at least the two
markers (37 characters) from the remaining suffix, so `s.length` fuel is
always sufficient. -/
def removeBlocksF : Nat → List Char → List Char
  | 0, s => s
  | fuel + 1, s =>
    match firstIdx startMarker s with
    | none => s
    | some i =>
      match firstIdx endMarker (s.drop (i + startMarker.length)) with
      | none => s
      | some j =>
        s.take i ++
          removeBlocksF fuel ((s.drop (i + startMarker.length)).drop (j + endMarker.length))

/-- All replacement blocks removed (the `replace(..., "")` call). -/
def removeBlocks (s : List Char) : List Char := removeBlocksF s.length s

/-- `cleanContent` from ChatPanel.tsx: remove every delimited block,
then trim. -/
def cleanContent (s : List Char) : List Char := trim (removeBlocks s)

/-- Whether `s` still contains a start marker followed (possibly later)
by an end marker, i.e. whether the replace regex matches `s`. -/
def hasBlock (s : List Char) : Bool :=
  match firstIdx startMarker s with
  | none => false
  | some i => (firstIdx endMarker (s.drop (i + startMarker.length))).isSome

/-- JavaScript `str.split("\n")` on a character list.  Always returns a
non-empty list; adjacent separators yield empty segments and a trailing
separator yields a trailing empty segment, exactly as in JavaScript. -/
def splitNl : List Char → List (List Char)
  | [] => [[]]
  | c :: rest =>
    if c = '\n' then [] :: splitNl rest
    else
      match splitNl rest with
      | [] => [[c]]
      | l :: ls => (c :: l) :: ls

/-- Last element of a list of lines (total, defaulting to the empty
line; `splitNl` never returns `[]`). -/
def lastD (ls : List (List Char)) : List Char := ls.getLast?.getD []

/-- Prepend a carried-over partial line to the first line of a split:
the gluing that happens when `buffer ++ chunk` is re-split. -/
def glueHead (p : List Char) : List (List Char) → List (List Char)
  | [] => [p]
  | l :: ls => (p ++ l) :: ls

/-- State of the client's stream-reading loop (`handleSendMessage` in
the editor page): the carry-over `buffer` and the complete lines emitted
so far, in order. -/
structure PState where
  buffer : List Char
  outLines : List (List Char)
deriving DecidableEq

/-- One iteration of the reader loop body:
`buffer += chunk; const lines = buffer.split("\n"); buffer = lines.pop() || ""`.
The popped trailing element becomes the new carry-over; the remaining
complete lines are emitted in order. -/
def feed (st : PState) (chunk : List Char) : PState :=
  let ls := splitNl (st.buffer ++ chunk)
  ⟨lastD ls, st.outLines ++ ls.dropLast⟩

/-- The `data: ` line marker. -/
def dataPrefix : List Char := "data: ".toList

/-- Per-line filtering of the reader loop:
`if (!line.startsWith("data: ")) continue; const jsonStr = line.slice(6).trim(); if (!jsonStr) continue;`
yielding the raw event payload string handed to `JSON.parse`. -/
def parseDataLine (line : List Char) : Option (List Char) :=
  if dataPrefix.isPrefixOf line then
    let j := trim (line.drop 6)
    if j = [] then none else some j
  else none

/-- Feeding a sequence of chunks through the reader loop from the empty
initial state and collecting the ordered raw event payloads of all
complete `data: ` lines (the carry-over left at end of stream is
discarded, as in the source). -/
def parseStream (chunks : List (List Char)) : List (List Char) :=
  ((chunks.foldl feed ⟨[], []⟩).outLines).filterMap parseDataLine

/-! ### Client state model (EditorPage, `handleSendMessage`) -/

/-- A chat message role. -/
inductive Role
  | user
  | assistant
  | system
deriving DecidableEq

/-- A chat message: `id`, `documentId` and `createdAt` carry no logic in
the claims and are abstracted away. -/
structure Msg where
  role : Role
  content : List Char
deriving DecidableEq

/-- The React state of the editor page that `handleSendMessage`,
`handleContentChange` and the status bar read and write. `toasts` counts
`toast(...)` notifications. -/
structure ClientState where
  messages : List Msg
  streamingContent : List Char
  content : List Char
  isConnected : Bool
  isAiLoading : Bool
  hasDocId : Bool
  toasts : Nat
deriving DecidableEq

/-- A successfully `JSON.parse`d frame object.  JavaScript truthiness of
the string fields is modelled by `≠ []` (the empty string is falsy), and
the handler checks the four fields independently, in source order. -/
structure FrameObj where
  content : List Char
  documentUpdate : List Char
  done : Bool
  error : List Char
deriving DecidableEq

/-- State local to one streaming turn: the React state plus the
accumulating `fullResponse` buffer. -/
structure TurnState where
  cs : ClientState
  fullResponse : List Char
deriving DecidableEq

/-- Handling of one complete `data: ` line, translated from the frame
dispatch in `handleSendMessage`.  The input is the outcome of
`JSON.parse` on the payload: `none` means a `SyntaxError` (which the
source `continue`s past), `some f` the parsed object.  A truthy
`error` field throws (`Except.error`), carrying the state mutated so
far, since the `error` check is the last of the four. -/
def stepLine (s : TurnState) : Option FrameObj → Except TurnState TurnState
  | none => Except.ok s
  | some f =>
    let s1 :=
      if f.content ≠ [] then
        { s with
          fullResponse := s.fullResponse ++ f.content,
          cs := { s.cs with streamingContent := s.fullResponse ++ f.content } }
      else s
    let s2 :=
      if f.documentUpdate ≠ [] then
        { s1 with cs := { s1.cs with content := f.documentUpdate, toasts := s1.cs.toasts + 1 } }
      else s1
    let s3 :=
      if f.done then
        { s2 with
          cs := { s2.cs with
            messages := s2.cs.messages ++ [⟨Role.assistant, s2.fullResponse⟩],
            streamingContent := [] } }
      else s2
    if f.error ≠ [] then Except.error s3 else Except.ok s3

/-- The state carried by either outcome of a dispatch step (the React
state mutations performed before a throw are not rolled back). -/
def outState : Except TurnState TurnState → TurnState
  | Except.ok s => s
  | Except.error s => s

/-- Run the per-line dispatch over a list of lines; a thrown error stops
processing and reports `true` in the second component. -/
def runLines : TurnState → List (Option FrameObj) → TurnState × Bool
  | s, [] => (s, false)
  | s, l :: rest =>
    match stepLine s l with
    | Except.ok s1 => runLines s1 rest
    | Except.error s1 => (s1, true)

/-- The optimistic setup executed by `handleSendMessage` before the
network call: append the user message, raise the loading flag, clear the
live buffer, mark connected. -/
def startTurn (st : ClientState) (userText : List Char) : ClientState :=
  { st with
    messages := st.messages ++ [⟨Role.user, userText⟩],
    isAiLoading := true,
    streamingContent := [],
    isConnected := true }

/-- The `catch` block of `handleSendMessage`: a failure toast, the
disconnected indicator, and clearing of the uncommitted live buffer. -/
def applyCatch (st : ClientState) : ClientState :=
  { st with toasts := st.toasts + 1, isConnected := false, streamingContent := [] }

/-- One whole turn of `handleSendMessage` after a document id is known:
run the optimistic setup, process the decoded lines, and, when either a
frame handler threw or the transport failed mid-stream
(`transportFail`), run the `catch` block; the `finally` block lowers the
loading flag on every path. -/
def runTurn (st : ClientState) (userText : List Char) (lines : List (Option FrameObj))
    (transportFail : Bool) : ClientState :=
  let p := runLines ⟨startTurn st userText, []⟩ lines
  let st2 := if p.2 || transportFail then applyCatch p.1.cs else p.1.cs
  { st2 with isAiLoading := false }

/-- `handleSendMessage` including the document-creation preamble, which
sits outside the `try` block: with no backing document, a failing
`createDocumentMutation.mutateAsync` rejects the whole handler
(`Except.error`, state unchanged) before any message is appended; a
successful creation records the id and proceeds. -/
def sendMessage (st : ClientState) (createOk : Bool) (userText : List Char)
    (lines : List (Option FrameObj)) (transportFail : Bool) : Except ClientState ClientState :=
  if st.hasDocId then Except.ok (runTurn st userText lines transportFail)
  else if createOk then
    Except.ok (runTurn { st with hasDocId := true } userText lines transportFail)
  else Except.error st

/-- An interleaving step of a turn: either one decoded stream line is
handled (at a suspension point of the reader loop) or the user makes a
manual edit, which the editor applies via `setContent`. -/
inductive TurnOp
  | line (l : Option FrameObj)
  | manual (v : List Char)
deriving DecidableEq

/-- Apply one interleaving step. -/
def stepOp (s : TurnState) : TurnOp → Except TurnState TurnState
  | TurnOp.line l => stepLine s l
  | TurnOp.manual v => Except.ok { s with cs := { s.cs with content := v } }

/-- Run an interleaving of stream lines and manual edits; a thrown error
stops processing and reports `true`. -/
def runOps : TurnState → List TurnOp → TurnState × Bool
  | s, [] => (s, false)
  | s, op :: rest =>
    match stepOp s op with
    | Except.ok s1 => runOps s1 rest
    | Except.error s1 => (s1, true)

/-- Steps that never write the working document content: handled lines
whose frame carries no (truthy) `documentUpdate` field, and lines whose
payload fails to parse.  Manual edits do write it. -/
def opKeepsContent : TurnOp → Bool
  | TurnOp.line none => true
  | TurnOp.line (some f) => f.documentUpdate.isEmpty
  | TurnOp.manual _ => false

/-! ### Server model (`POST /api/documents/:id/chat` in server/routes.ts) -/

/-- Observable actions of the chat route handler, in execution order. -/
inductive SrvEvent
  | persistUser (c : List Char)
  | writeContent (c : List Char)
  | writeUpdate (u : List Char)
  | persistDoc (u : List Char)
  | persistAssistant (c : List Char)
  | writeDone
deriving DecidableEq

/-- The accumulated `fullResponse`: only truthy delta texts are
appended. -/
def serverFull (deltas : List (List Char)) : List Char :=
  (deltas.filter (fun d => d ≠ [])).foldl (· ++ ·) []

/-- The ordered trace of persistence calls and stream writes performed
by the chat route on a turn that completes without an upstream error,
given the upstream delta texts: persist the user message, write one
content frame per truthy delta, then — if the full response matches the
replacement regex — write the `documentUpdate` frame and then persist
the replacement, then persist the raw assistant message, then write the
terminal frame. -/
def chatTurnTrace (userContent : List Char) (deltas : List (List Char)) : List SrvEvent :=
  SrvEvent.persistUser userContent ::
    ((deltas.filter (fun d => d ≠ [])).map SrvEvent.writeContent ++
      (match extractUpdate (serverFull deltas) with
       | some u => [SrvEvent.writeUpdate u, SrvEvent.persistDoc u]
       | none => []) ++
      [SrvEvent.persistAssistant (serverFull deltas), SrvEvent.writeDone])

/-- Index of the first occurrence of an event in a trace (length of the
trace if absent). -/
def evIdx (e : SrvEvent) : List SrvEvent → Nat
  | [] => 0
  | x :: t => if x = e then 0 else evIdx e t + 1

/-- `existingMessages.slice(-10)`: the at-most-10 most recent stored
messages. -/
def sliceLast10 (l : List Msg) : List Msg := l.drop (l.length - 10)

/-- The message list handed to the completion provider: the system
prompt followed by the sliced chat history (which was read back after
the user message was persisted). -/
def providerMessages (sys : Msg) (stored : List Msg) : List Msg :=
  sys :: sliceLast10 stored

/-! ### Debounced persistence bridge (`handleContentChange`, `handleTitleChange`) -/

/-- The two debounced fields. -/
inductive DbField
  | content
  | title
deriving DecidableEq

/-- Debounce window per field: content 1000 ms, title 500 ms. -/
def window : DbField → Nat
  | DbField.content => 1000
  | DbField.title => 500

/-- A local edit event at (millisecond) time `t`. -/
structure Edit where
  t : Nat
  field : DbField
  value : List Char
deriving DecidableEq

/-- A fired persistence call (`updateDocumentMutation.mutate`), tagged
with the time its timer expired. -/
structure PersistCall where
  t : Nat
  field : DbField
  value : List Char
deriving DecidableEq

/-- State of the two independent debounce timers
(`contentDebounceRef` / `titleDebounceRef`): an optional pending
(deadline, value) pair per field, plus the calls fired so far. -/
structure DebounceState where
  pendingContent : Option (Nat × List Char)
  pendingTitle : Option (Nat × List Char)
  calls : List PersistCall
deriving DecidableEq

/-- A pending timer whose deadline has passed by time `now` has already
fired (so the handler's `clearTimeout` at `now` cannot cancel it); the
call it issued carries the value captured when it was scheduled. -/
def fireDue (fld : DbField) (now : Nat) : Option (Nat × List Char) → List PersistCall
  | some (d, v) => if d ≤ now then [⟨d, fld, v⟩] else []
  | none => []

/-- `handleContentChange` / `handleTitleChange` at time `e.t`:
`clearTimeout` the field's pending timer (it has already fired if its
deadline passed), then — only when a document id exists — schedule a new
timer with the new value, `window e.field` later.  The other field's
timer is untouched. -/
def onEdit (hasDoc : Bool) (st : DebounceState) (e : Edit) : DebounceState :=
  match e.field with
  | DbField.content =>
    { st with
      calls := st.calls ++ fireDue DbField.content e.t st.pendingContent,
      pendingContent := if hasDoc then some (e.t + window DbField.content, e.value) else none }
  | DbField.title =>
    { st with
      calls := st.calls ++ fireDue DbField.title e.t st.pendingTitle,
      pendingTitle := if hasDoc then some (e.t + window DbField.title, e.value) else none }

/-- A still-pending timer fires at its deadline once time runs out. -/
def pendingCall (fld : DbField) : Option (Nat × List Char) → List PersistCall
  | some (d, v) => [⟨d, fld, v⟩]
  | none => []

/-- All persistence calls eventually issued for a time-ordered sequence
of edits, letting every remaining timer expire at the end. -/
def runDebounce (hasDoc : Bool) (edits : List Edit) : List PersistCall :=
  let st := edits.foldl (onEdit hasDoc) ⟨none, none, []⟩
  st.calls ++ pendingCall DbField.content st.pendingContent ++
    pendingCall DbField.title st.pendingTitle

/-- The field-`fld` pending slot of a debounce state. -/
def pendingOf (fld : DbField) (st : DebounceState) : Option (Nat × List Char) :=
  match fld with
  | DbField.content => st.pendingContent
  | DbField.title => st.pendingTitle

/-- The sub-sequence of calls belonging to one field. -/
def callsFor (fld : DbField) (cs : List PersistCall) : List PersistCall :=
  cs.filter (fun c => c.field = fld)

/-- A debounce state whose `fld` slot holds `p`, the other slot empty. -/
def mkPending (fld : DbField) (p : Option (Nat × List Char)) (cs : List PersistCall) :
    DebounceState :=
  match fld with
  | DbField.content => ⟨p, none, cs⟩
  | DbField.title => ⟨none, p, cs⟩

/-! ### Occurrence lemmas for `firstIdx` -/

theorem firstIdx_none_iff (pat s : List Char) :
    firstIdx pat s = none ↔ ∀ k, ¬ pat <+: s.drop k := by
  induction s with
  | nil =>
    constructor
    · intro h k hp
      rw [List.drop_nil] at hp
      simp only [firstIdx] at h
      rw [if_pos (List.isPrefixOf_iff_prefix.mpr hp)] at h
      exact Option.noConfusion h
    · intro h
      simp only [firstIdx]
      rw [if_neg]
      intro hb
      exact h 0 (List.isPrefixOf_iff_prefix.mp hb)
  | cons c t ih =>
    constructor
    · intro h k hp
      simp only [firstIdx] at h
      by_cases hb : pat.isPrefixOf (c :: t)
      · rw [if_pos hb] at h
        exact Option.noConfusion h
      · rw [if_neg hb] at h
        have ht : firstIdx pat t = none := by
          cases hx : firstIdx pat t with
          | none => rfl
          | some v => rw [hx] at h; exact Option.noConfusion h
        cases k with
        | zero =>
          rw [List.drop_zero] at hp
          exact hb (List.isPrefixOf_iff_prefix.mpr hp)
        | succ k =>
          rw [List.drop_succ_cons] at hp
          exact (ih.mp ht) k hp
    · intro h
      simp only [firstIdx]
      rw [if_neg, ih.mpr, Option.map_none']
      · intro k
        have hk := h (k + 1)
        rw [List.drop_succ_cons] at hk
        exact hk
      · intro hb
        have h0 := h 0
        rw [List.drop_zero] at h0
        exact h0 (List.isPrefixOf_iff_prefix.mp hb)

theorem firstIdx_some_prefix {pat s : List Char} {i : Nat}
    (h : firstIdx pat s = some i) : pat <+: s.drop i := by
  induction s generalizing i with
  | nil =>
    simp only [firstIdx] at h
    by_cases hb : pat.isPrefixOf ([] : List Char)
    · rw [if_pos hb] at h
      cases h
      rw [List.drop_nil]
      exact List.isPrefixOf_iff_prefix.mp hb
    · rw [if_neg hb] at h
      exact Option.noConfusion h
  | cons c t ih =>
    simp only [firstIdx] at h
    by_cases hb : pat.isPrefixOf (c :: t)
    · rw [if_pos hb] at h
      cases h
      rw [List.drop_zero]
      exact List.isPrefixOf_iff_prefix.mp hb
    · rw [if_neg hb] at h
      cases hx : firstIdx pat t with
      | none => rw [hx] at h; exact Option.noConfusion h
      | some j =>
        rw [hx] at h
        simp only [Option.map_some'] at h
        cases h
        rw [List.drop_succ_cons]
        exact ih hx

theorem firstIdx_some_min {pat s : List Char} {i : Nat}
    (h : firstIdx pat s = some i) : ∀ k, k < i → ¬ pat <+: s.drop k := by
  induction s generalizing i with
  | nil =>
    simp only [firstIdx] at h
    by_cases hb : pat.isPrefixOf ([] : List Char)
    · rw [if_pos hb] at h
      cases h
      intro k hk
      exact absurd hk (Nat.not_lt_zero k)
    · rw [if_neg hb] at h
      exact Option.noConfusion h
  | cons c t ih =>
    simp only [firstIdx] at h
    by_cases hb : pat.isPrefixOf (c :: t)
    · rw [if_pos hb] at h
      cases h
      intro k hk
      exact absurd hk (Nat.not_lt_zero k)
    · rw [if_neg hb] at h
      cases hx : firstIdx pat t with
      | none => rw [hx] at h; exact Option.noConfusion h
      | some j =>
        rw [hx] at h
        simp only [Option.map_some'] at h
        cases h
        intro k hk
        cases k with
        | zero =>
          rw [List.drop_zero]
          intro hp
          exact hb (List.isPrefixOf_iff_prefix.mpr hp)
        | succ k =>
          rw [List.drop_succ_cons]
          exact ih hx k (Nat.lt_of_succ_lt_succ hk)

theorem firstIdx_eq_some_of {pat s : List Char} {i : Nat}
    (hp : pat <+: s.drop i) (hmin : ∀ k, k < i → ¬ pat <+: s.drop k) :
    firstIdx pat s = some i := by
  induction s generalizing i with
  | nil =>
    rw [List.drop_nil] at hp
    have hi : i = 0 := by
      by_contra hne
      have h0 := hmin 0 (Nat.pos_of_ne_zero hne)
      rw [List.drop_nil] at h0
      exact h0 hp
    subst hi
    simp only [firstIdx]
    rw [if_pos (List.isPrefixOf_iff_prefix.mpr hp)]
  | cons c t ih =>
    by_cases hb : pat.isPrefixOf (c :: t)
    · have hi : i = 0 := by
        by_contra hne
        have h0 := hmin 0 (Nat.pos_of_ne_zero hne)
        rw [List.drop_zero] at h0
        exact h0 (List.isPrefixOf_iff_prefix.mp hb)
      subst hi
      simp only [firstIdx]
      rw [if_pos hb]
    · cases i with
      | zero =>
        rw [List.drop_zero] at hp
        exact absurd hp (fun hp => hb (List.isPrefixOf_iff_prefix.mpr hp))
      | succ j =>
        rw [List.drop_succ_cons] at hp
        have hmin' : ∀ k, k < j → ¬ pat <+: t.drop k := by
          intro k hk
          have := hmin (k + 1) (Nat.succ_lt_succ hk)
          rw [List.drop_succ_cons] at this
          exact this
        simp only [firstIdx]
        rw [if_neg hb, ih hp hmin', Option.map_some']

theorem firstIdx_isSome_of {pat s : List Char} {q : Nat} (hp : pat <+: s.drop q) :
    (firstIdx pat s).isSome := by
  cases hx : firstIdx pat s with
  | none => exact absurd hp ((firstIdx_none_iff pat s).mp hx q)
  | some i => rfl

/-! ### Claim C2 -/

/-- C2: document-update extraction correctness.  Conjunct 1: a text with
no start marker yields no extraction; conjunct 2: a text with no end
marker (in particular one with only a start marker) yields no
extraction; conjunct 3: writing the text as
`a ++ start ++ m ++ end ++ b` where the exhibited start marker is the
first start-marker occurrence and the exhibited end marker is the first
end-marker occurrence after it, the extractor yields exactly the
interior `m` with surrounding whitespace trimmed — which covers both the
unique well-formed pair and the first pair of several. -/
theorem extract_update_spec :
    (∀ s : List Char, firstIdx startMarker s = none → extractUpdate s = none) ∧
    (∀ s : List Char, firstIdx endMarker s = none → extractUpdate s = none) ∧
    (∀ a m b : List Char,
      (∀ k, k < a.length →
        ¬ startMarker <+: (a ++ startMarker ++ m ++ endMarker ++ b).drop k) →
      (∀ k, k < m.length → ¬ endMarker <+: (m ++ endMarker ++ b).drop k) →
      extractUpdate (a ++ startMarker ++ m ++ endMarker ++ b) = some (trim m)) := by
  refine ⟨?_, ?_, ?_⟩
  · intro s h
    unfold extractUpdate
    rw [h]
  · intro s h
    have hnone : ∀ c : Nat, firstIdx endMarker (s.drop c) = none := by
      intro c
      rw [firstIdx_none_iff]
      intro k
      rw [List.drop_drop]
      exact (firstIdx_none_iff endMarker s).mp h (c + k)
    unfold extractUpdate
    cases hx : firstIdx startMarker s with
    | none => rfl
    | some i => simp only [hnone]
  · intro a m b ha hm
    have hassoc : a ++ startMarker ++ m ++ endMarker ++ b =
        a ++ (startMarker ++ (m ++ (endMarker ++ b))) := by
      simp [List.append_assoc]
    have h1 : firstIdx startMarker (a ++ startMarker ++ m ++ endMarker ++ b) =
        some a.length := by
      apply firstIdx_eq_some_of
      · rw [hassoc, List.drop_left]
        exact List.prefix_append _ _
      · exact ha
    have h2 : (a ++ startMarker ++ m ++ endMarker ++ b).drop
        (a.length + startMarker.length) = m ++ endMarker ++ b := by
      rw [hassoc, ← List.drop_drop, List.drop_left, List.drop_left, List.append_assoc]
    have h3 : firstIdx endMarker (m ++ endMarker ++ b) = some m.length := by
      apply firstIdx_eq_some_of
      · rw [List.append_assoc, List.drop_left]
        exact List.prefix_append _ _
      · exact hm
    unfold extractUpdate
    simp only [h1, h2, h3]
    rw [List.append_assoc, List.take_left]

/-! ### Trim and block-removal lemmas (claim C5) -/

theorem dropWhile_head_not {p : Char → Bool} {l : List Char} {c : Char}
    (h : (l.dropWhile p).head? = some c) : p c = false := by
  have hm := List.head?_dropWhile_not p l
  rw [h] at hm
  exact hm

theorem dropWhile_eq_self_of_head {p : Char → Bool} {l : List Char}
    (h : ∀ c, l.head? = some c → p c = false) : l.dropWhile p = l := by
  cases l with
  | nil => rfl
  | cons c t =>
    have hc := h c rfl
    simp [List.dropWhile, hc]

theorem dropWhile_getLast_of_ne_nil {p : Char → Bool} {l : List Char}
    (h : l.dropWhile p ≠ []) : (l.dropWhile p).getLast? = l.getLast? := by
  conv_rhs => rw [← List.takeWhile_append_dropWhile p l]
  rw [List.getLast?_append_of_ne_nil _ h]

theorem trim_head_not {s : List Char} {c : Char}
    (h : (trim s).head? = some c) : isWsChar c = false := by
  unfold trim at h
  rw [List.head?_reverse] at h
  have hne : ((s.dropWhile isWsChar).reverse.dropWhile isWsChar) ≠ [] := by
    intro he
    rw [he] at h
    exact Option.noConfusion h
  rw [dropWhile_getLast_of_ne_nil hne, List.getLast?_reverse] at h
  exact dropWhile_head_not h

theorem trim_getLast_not {s : List Char} {c : Char}
    (h : (trim s).getLast? = some c) : isWsChar c = false := by
  unfold trim at h
  rw [List.getLast?_reverse] at h
  exact dropWhile_head_not h

theorem trim_eq_self_of {l : List Char}
    (h1 : ∀ c, l.head? = some c → isWsChar c = false)
    (h2 : ∀ c, l.getLast? = some c → isWsChar c = false) : trim l = l := by
  unfold trim
  rw [dropWhile_eq_self_of_head h1]
  rw [dropWhile_eq_self_of_head (fun c hc => h2 c (by rwa [List.head?_reverse] at hc))]
  exact List.reverse_reverse l

theorem trim_idem (s : List Char) : trim (trim s) = trim s :=
  trim_eq_self_of (fun _ h => trim_head_not h) (fun _ h => trim_getLast_not h)

theorem trim_within (s : List Char) : ∃ u v, s = u ++ trim s ++ v := by
  refine ⟨s.takeWhile isWsChar,
    ((s.dropWhile isWsChar).reverse.takeWhile isWsChar).reverse, ?_⟩
  conv_lhs => rw [← List.takeWhile_append_dropWhile isWsChar s]
  rw [List.append_assoc]
  congr 1
  unfold trim
  conv_lhs => rw [← List.reverse_reverse (s.dropWhile isWsChar)]
  conv_lhs =>
    rw [← List.takeWhile_append_dropWhile isWsChar (s.dropWhile isWsChar).reverse]
  rw [List.reverse_append]

theorem prefix_drop_of_ne_nil {pat l : List Char} {k : Nat}
    (hpat : pat ≠ []) (hp : pat <+: l.drop k) : k ≤ l.length := by
  by_contra hk
  rw [List.drop_eq_nil_of_le (Nat.le_of_lt (Nat.lt_of_not_le hk))] at hp
  exact hpat (List.prefix_nil.mp hp)

theorem prefix_lift_infix {pat u t v : List Char} {k : Nat}
    (hpat : pat ≠ []) (hp : pat <+: t.drop k) :
    pat <+: (u ++ t ++ v).drop (u.length + k) := by
  have hk : k ≤ t.length := prefix_drop_of_ne_nil hpat hp
  rw [List.append_assoc, ← List.drop_drop, List.drop_left,
    List.drop_append_of_le_length hk]
  exact hp.trans (List.prefix_append _ _)

theorem hasBlock_iff (s : List Char) :
    hasBlock s = true ↔
      ∃ p q, startMarker <+: s.drop p ∧ endMarker <+: s.drop q ∧
        p + startMarker.length ≤ q := by
  constructor
  · intro h
    unfold hasBlock at h
    split at h
    · exact Bool.noConfusion h
    · next i hx =>
      cases he : firstIdx endMarker (s.drop (i + startMarker.length)) with
      | none => rw [he] at h; exact Bool.noConfusion h
      | some j =>
        refine ⟨i, i + startMarker.length + j, firstIdx_some_prefix hx, ?_, ?_⟩
        · have hpre := firstIdx_some_prefix he
          rwa [List.drop_drop] at hpre
        · omega
  · rintro ⟨p, q, hp, hq, hle⟩
    unfold hasBlock
    split
    · next hx => exact absurd hp ((firstIdx_none_iff _ _).mp hx p)
    · next i hx =>
      have hip : i ≤ p := by
        by_contra hgt
        exact firstIdx_some_min hx p (Nat.lt_of_not_le hgt) hp
      have hq' : endMarker <+: (s.drop (i + startMarker.length)).drop
          (q - (i + startMarker.length)) := by
        rw [List.drop_drop]
        have harith : i + startMarker.length + (q - (i + startMarker.length)) = q := by
          omega
        rwa [harith]
      exact firstIdx_isSome_of hq'

theorem hasBlock_within {u t v s : List Char} (hs : s = u ++ t ++ v)
    (h : hasBlock t = true) : hasBlock s = true := by
  rcases (hasBlock_iff t).mp h with ⟨p, q, hp, hq, hle⟩
  subst hs
  refine (hasBlock_iff _).mpr ⟨u.length + p, u.length + q, ?_, ?_, by omega⟩
  · exact prefix_lift_infix (by decide) hp
  · exact prefix_lift_infix (by decide) hq

theorem removeBlocksF_of_not {s : List Char} (h : hasBlock s = false) :
    ∀ n, removeBlocksF n s = s := by
  intro n
  cases n with
  | zero => rfl
  | succ n =>
    unfold removeBlocksF
    split
    · rfl
    · next i hx =>
      split
      · rfl
      · next j he =>
        exfalso
        unfold hasBlock at h
        split at h
        · next hx' => rw [hx'] at hx; exact Option.noConfusion hx
        · next i' hx' =>
          rw [hx'] at hx
          cases hx
          rw [he] at h
          exact Bool.noConfusion h

/-! ### Claim C5 -/

/-- C5 counterexample: content cleaning is not idempotent.  Removing a
block can splice fragments on either side of it into a brand-new
marker pair: here the first pass removes the inner (empty-interior)
block and thereby glues `<<<DOC` to `UMENT_UPDATE>>>abc<<<END_UPDATE>>>`,
leaving a complete block that only a second pass removes. -/
theorem clean_not_idempotent_cex :
    cleanContent (cleanContent
      "<<<DOC<<<DOCUMENT_UPDATE>>><<<END_UPDATE>>>UMENT_UPDATE>>>abc<<<END_UPDATE>>>".toList) ≠
    cleanContent
      "<<<DOC<<<DOCUMENT_UPDATE>>><<<END_UPDATE>>>UMENT_UPDATE>>>abc<<<END_UPDATE>>>".toList := by
  decide

/-- C5 amended: cleaning is idempotent for every input whose single-pass
result no longer matches the block regex — in particular for all text in
which the markers occur only as complete blocks; in general a removal
can splice a new marker pair out of fragments, so a second pass may
remove more (see the counterexample). -/
theorem clean_idempotent_of_no_block (x : List Char)
    (h : hasBlock (removeBlocks x) = false) :
    cleanContent (cleanContent x) = cleanContent x := by
  have h2 : hasBlock (trim (removeBlocks x)) = false := by
    cases hb : hasBlock (trim (removeBlocks x)) with
    | false => rfl
    | true =>
      rcases trim_within (removeBlocks x) with ⟨u, v, huv⟩
      rw [hasBlock_within huv hb] at h
      exact Bool.noConfusion h
  show trim (removeBlocks (trim (removeBlocks x))) = trim (removeBlocks x)
  have h3 : removeBlocks (trim (removeBlocks x)) = trim (removeBlocks x) :=
    removeBlocksF_of_not h2 _
  rw [h3]
  exact trim_idem _

/-- C5 witness: the amended idempotence applied to the spec's
scenario-B assistant response, whose cleaned form has no residual
block. -/
theorem clean_idempotent_witness :
    cleanContent (cleanContent
      "Sure!\n<<<DOCUMENT_UPDATE>>>\n<p>Hi</p>\n<<<END_UPDATE>>>\nDone.".toList) =
    cleanContent
      "Sure!\n<<<DOCUMENT_UPDATE>>>\n<p>Hi</p>\n<<<END_UPDATE>>>\nDone.".toList :=
  clean_idempotent_of_no_block _ (by decide)

/-- C2 witness: the three conjuncts at concrete inputs — a markerless
text, a text holding only a start marker, and the spec's end-to-end
scenario B text, whose extraction is the trimmed interior
`<p>Hi</p>`. -/
theorem extract_update_spec_witness :
    extractUpdate "hello".toList = none ∧
    extractUpdate "ok <<<DOCUMENT_UPDATE>>> partial".toList = none ∧
    extractUpdate ("Sure!\n".toList ++ startMarker ++ "\n<p>Hi</p>\n".toList ++
      endMarker ++ "\nDone.".toList) = some (trim "\n<p>Hi</p>\n".toList) :=
  ⟨extract_update_spec.1 _ (by decide),
   extract_update_spec.2.1 _ (by decide),
   extract_update_spec.2.2 _ _ _ (by decide) (by decide)⟩

/-! ### Line-splitting lemmas (claim C1) -/

theorem splitNl_ne_nil (s : List Char) : splitNl s ≠ [] := by
  induction s with
  | nil => simp [splitNl]
  | cons c t ih =>
    simp only [splitNl]
    by_cases hc : c = '\n'
    · simp [hc]
    · rw [if_neg hc]
      cases hx : splitNl t with
      | nil => simp
      | cons l ls => simp

theorem glueHead_ne_nil (p : List Char) (ls : List (List Char)) : glueHead p ls ≠ [] := by
  cases ls <;> simp [glueHead]

theorem lastD_cons_of_ne_nil (x : List Char) {ls : List (List Char)} (h : ls ≠ []) :
    lastD (x :: ls) = lastD ls := by
  unfold lastD
  rw [← List.singleton_append, List.getLast?_append_of_ne_nil _ h]

theorem lastD_append_of_ne_nil (u : List (List Char)) {v : List (List Char)} (h : v ≠ []) :
    lastD (u ++ v) = lastD v := by
  unfold lastD
  rw [List.getLast?_append_of_ne_nil _ h]

theorem dropLast_cons_of_ne_nil (x : List Char) {ls : List (List Char)} (h : ls ≠ []) :
    (x :: ls).dropLast = x :: ls.dropLast := by
  cases ls with
  | nil => exact absurd rfl h
  | cons y ys => rfl

theorem dropLast_append_of_ne_nil (u : List (List Char)) {v : List (List Char)}
    (h : v ≠ []) : (u ++ v).dropLast = u ++ v.dropLast := by
  induction u with
  | nil => rfl
  | cons x u ih =>
    rw [List.cons_append, dropLast_cons_of_ne_nil x (by simp [h]), ih, List.cons_append]

theorem splitNl_append (a b : List Char) :
    splitNl (a ++ b) =
      (splitNl a).dropLast ++ glueHead (lastD (splitNl a)) (splitNl b) := by
  induction a with
  | nil =>
    rw [List.nil_append]
    cases hx : splitNl b with
    | nil => exact absurd hx (splitNl_ne_nil b)
    | cons l ls => simp [splitNl, glueHead, lastD]
  | cons c t ih =>
    by_cases hc : c = '\n'
    · subst hc
      have h1 : splitNl ('\n' :: (t ++ b)) = [] :: splitNl (t ++ b) := by simp [splitNl]
      have h2 : splitNl ('\n' :: t) = [] :: splitNl t := by simp [splitNl]
      rw [List.cons_append, h1, h2, ih, dropLast_cons_of_ne_nil _ (splitNl_ne_nil t),
        lastD_cons_of_ne_nil _ (splitNl_ne_nil t), List.cons_append]
    · rw [List.cons_append]
      cases hab : splitNl (t ++ b) with
      | nil => exact absurd hab (splitNl_ne_nil _)
      | cons l ls =>
        have hl : splitNl (c :: (t ++ b)) = (c :: l) :: ls := by
          simp only [splitNl]
          rw [if_neg hc, hab]
        cases ht : splitNl t with
        | nil => exact absurd ht (splitNl_ne_nil t)
        | cons x xs =>
          have hct : splitNl (c :: t) = (c :: x) :: xs := by
            simp only [splitNl]
            rw [if_neg hc, ht]
          rw [hab, ht] at ih
          cases xs with
          | nil =>
            rw [hl, hct]
            have ih' : l :: ls = glueHead x (splitNl b) := ih
            show (c :: l) :: ls = glueHead (c :: x) (splitNl b)
            cases hsb : splitNl b with
            | nil => exact absurd hsb (splitNl_ne_nil b)
            | cons lb lsb =>
              rw [hsb] at ih'
              simp only [glueHead] at ih' ⊢
              injection ih' with ih1 ih2
              rw [ih1, ih2, List.cons_append]
          | cons y ys =>
            have hys : (y :: ys : List (List Char)) ≠ [] := by simp
            rw [hl, hct]
            rw [dropLast_cons_of_ne_nil _ hys, lastD_cons_of_ne_nil _ hys,
              List.cons_append] at ih
            injection ih with ih1 ih2
            rw [dropLast_cons_of_ne_nil _ hys, lastD_cons_of_ne_nil _ hys,
              List.cons_append, ih1, ih2]

theorem noNl_lastD (s : List Char) : '\n' ∉ lastD (splitNl s) := by
  induction s with
  | nil => simp [splitNl, lastD]
  | cons c t ih =>
    by_cases hc : c = '\n'
    · subst hc
      have h1 : splitNl ('\n' :: t) = [] :: splitNl t := by simp [splitNl]
      rw [h1, lastD_cons_of_ne_nil _ (splitNl_ne_nil t)]
      exact ih
    · cases ht : splitNl t with
      | nil => exact absurd ht (splitNl_ne_nil t)
      | cons x xs =>
        have hct : splitNl (c :: t) = (c :: x) :: xs := by
          simp only [splitNl]
          rw [if_neg hc, ht]
        rw [hct]
        cases xs with
        | nil =>
          rw [ht] at ih
          have hx : lastD [x] = x := rfl
          have hcx : lastD [c :: x] = c :: x := rfl
          rw [hx] at ih
          rw [hcx]
          intro hm
          cases hm with
          | head => exact hc rfl
          | tail _ hm => exact ih hm
        | cons y ys =>
          have hys : (y :: ys : List (List Char)) ≠ [] := by simp
          rw [lastD_cons_of_ne_nil _ hys]
          rw [ht, lastD_cons_of_ne_nil _ hys] at ih
          exact ih

theorem splitNl_no_nl {l : List Char} (h : '\n' ∉ l) : splitNl l = [l] := by
  induction l with
  | nil => rfl
  | cons c t ih =>
    have hc : c ≠ '\n' := fun he => h (he ▸ List.mem_cons_self c t)
    have ht : splitNl t = [t] := ih (fun hm => h (List.mem_cons_of_mem c hm))
    simp only [splitNl]
    rw [if_neg hc, ht]

theorem feed_nil {st : PState} (h : '\n' ∉ st.buffer) : feed st [] = st := by
  simp only [feed]
  rw [List.append_nil, splitNl_no_nl h]
  simp [lastD]

theorem feed_append (st : PState) (a b : List Char) :
    feed (feed st a) b = feed st (a ++ b) := by
  have h2 : splitNl (lastD (splitNl (st.buffer ++ a)) ++ b) =
      glueHead (lastD (splitNl (st.buffer ++ a))) (splitNl b) := by
    rw [splitNl_append, splitNl_no_nl (noNl_lastD (st.buffer ++ a))]
    rfl
  have h3 : splitNl (st.buffer ++ (a ++ b)) =
      (splitNl (st.buffer ++ a)).dropLast ++
        glueHead (lastD (splitNl (st.buffer ++ a))) (splitNl b) := by
    rw [← List.append_assoc]
    exact splitNl_append _ _
  simp only [feed]
  rw [h2, h3, PState.mk.injEq]
  constructor
  · rw [lastD_append_of_ne_nil _ (glueHead_ne_nil _ _)]
  · rw [dropLast_append_of_ne_nil _ (glueHead_ne_nil _ _), List.append_assoc]

theorem foldl_feed (cs : List (List Char)) :
    ∀ st : PState, '\n' ∉ st.buffer → cs.foldl feed st = feed st cs.flatten := by
  induction cs with
  | nil =>
    intro st h
    rw [List.foldl_nil, List.flatten_nil, feed_nil h]
  | cons c cs ih =>
    intro st h
    rw [List.foldl_cons, List.flatten_cons, ← feed_append]
    exact ih (feed st c) (noNl_lastD _)

/-! ### Claim C1 -/

/-- C1: chunk-boundary invariance of the stream frame parser.  For
every byte stream and every way of splitting it into chunks, the
carry-over loop emits the same ordered sequence of raw event payloads as
feeding the whole stream in a single chunk (proved for all streams, so
in particular for well-formed ones).  Each payload is the argument later
handed to `JSON.parse`, which is a pure per-payload function, so equal
payload sequences yield equal parsed-frame sequences. -/
theorem chunk_boundary_invariance (chunks : List (List Char)) :
    parseStream chunks = parseStream [chunks.flatten] := by
  unfold parseStream
  rw [foldl_feed chunks ⟨[], []⟩ (by simp),
    foldl_feed [chunks.flatten] ⟨[], []⟩ (by simp), List.flatten_cons, List.flatten_nil,
    List.append_nil]

/-! ### Trace-index lemmas and claims C3, C10 -/

theorem evIdx_cons_self (e : SrvEvent) (t : List SrvEvent) : evIdx e (e :: t) = 0 := by
  simp [evIdx]

theorem evIdx_append_of_ne {tgt : SrvEvent} :
    ∀ (pre rest : List SrvEvent), (∀ e ∈ pre, e ≠ tgt) →
      evIdx tgt (pre ++ rest) = pre.length + evIdx tgt rest := by
  intro pre
  induction pre with
  | nil => intro rest _; simp
  | cons x pre ih =>
    intro rest h
    have hx : x ≠ tgt := h x (List.mem_cons_self x pre)
    rw [List.cons_append]
    simp only [evIdx]
    rw [if_neg hx, ih rest (fun e he => h e (List.mem_cons_of_mem x he))]
    simp [List.length_cons]
    omega

theorem evIdx_cons_of_ne {tgt x : SrvEvent} (h : x ≠ tgt) (t : List SrvEvent) :
    evIdx tgt (x :: t) = evIdx tgt t + 1 := by
  simp only [evIdx]
  rw [if_neg h]

/-- C3 counterexample: the chat route emits the `documentUpdate` frame
strictly before persisting the replacement to the document store
(`res.write` precedes `await storage.updateDocument`), so for the
concrete turn whose single delta is a full replacement block, the index
of the `writeUpdate` event is strictly below the index of the
`persistDoc` event — the opposite of the claimed persist-before-emit
order. -/
theorem persist_order_cex :
    SrvEvent.writeUpdate "x".toList ∈
      chatTurnTrace "edit".toList ["<<<DOCUMENT_UPDATE>>>x<<<END_UPDATE>>>".toList] ∧
    SrvEvent.persistDoc "x".toList ∈
      chatTurnTrace "edit".toList ["<<<DOCUMENT_UPDATE>>>x<<<END_UPDATE>>>".toList] ∧
    evIdx (SrvEvent.writeUpdate "x".toList)
        (chatTurnTrace "edit".toList ["<<<DOCUMENT_UPDATE>>>x<<<END_UPDATE>>>".toList]) <
      evIdx (SrvEvent.persistDoc "x".toList)
        (chatTurnTrace "edit".toList ["<<<DOCUMENT_UPDATE>>>x<<<END_UPDATE>>>".toList]) := by
  decide

/-- C3 amended: on an error-free turn the gateway persists the user
message before any stream write, emits the `documentUpdate` frame and
then persists the extracted replacement (emit-before-persist, not the
claimed persist-before-emit), persists the raw assistant message after
the stream completes, and does all of this before the terminal frame,
which is the last event of the trace. -/
theorem gateway_trace_order (user : List Char) (deltas : List (List Char)) (u : List Char)
    (h : extractUpdate (serverFull deltas) = some u) :
    evIdx (SrvEvent.persistUser user) (chatTurnTrace user deltas) = 0 ∧
    evIdx (SrvEvent.writeUpdate u) (chatTurnTrace user deltas) <
      evIdx (SrvEvent.persistDoc u) (chatTurnTrace user deltas) ∧
    evIdx (SrvEvent.persistDoc u) (chatTurnTrace user deltas) <
      evIdx SrvEvent.writeDone (chatTurnTrace user deltas) ∧
    evIdx (SrvEvent.persistAssistant (serverFull deltas)) (chatTurnTrace user deltas) <
      evIdx SrvEvent.writeDone (chatTurnTrace user deltas) ∧
    (chatTurnTrace user deltas).getLast? = some SrvEvent.writeDone := by
  have htr : chatTurnTrace user deltas =
      SrvEvent.persistUser user ::
        ((deltas.filter (fun d => d ≠ [])).map SrvEvent.writeContent ++
          [SrvEvent.writeUpdate u, SrvEvent.persistDoc u,
            SrvEvent.persistAssistant (serverFull deltas), SrvEvent.writeDone]) := by
    unfold chatTurnTrace
    rw [h, List.append_assoc]
    rfl
  have hm : ∀ tgt : SrvEvent, (∀ c : List Char, tgt ≠ SrvEvent.writeContent c) →
      ∀ e ∈ (deltas.filter (fun d => d ≠ [])).map SrvEvent.writeContent, e ≠ tgt := by
    intro tgt htgt e he
    rcases List.mem_map.mp he with ⟨d, _, rfl⟩
    exact fun hc => htgt d hc.symm
  rw [htr]
  refine ⟨evIdx_cons_self _ _, ?_, ?_, ?_, ?_⟩
  · rw [evIdx_cons_of_ne (by simp) _, evIdx_cons_of_ne (by simp) _,
      evIdx_append_of_ne _ _ (hm _ (by simp)), evIdx_append_of_ne _ _ (hm _ (by simp))]
    simp only [evIdx]
    simp
  · rw [evIdx_cons_of_ne (by simp) _, evIdx_cons_of_ne (by simp) _,
      evIdx_append_of_ne _ _ (hm _ (by simp)), evIdx_append_of_ne _ _ (hm _ (by simp))]
    simp only [evIdx]
    simp
  · rw [evIdx_cons_of_ne (by simp) _, evIdx_cons_of_ne (by simp) _,
      evIdx_append_of_ne _ _ (hm _ (by simp)), evIdx_append_of_ne _ _ (hm _ (by simp))]
    simp only [evIdx]
    simp
  · have hsplit : SrvEvent.persistUser user ::
        ((deltas.filter (fun d => d ≠ [])).map SrvEvent.writeContent ++
          [SrvEvent.writeUpdate u, SrvEvent.persistDoc u,
            SrvEvent.persistAssistant (serverFull deltas), SrvEvent.writeDone]) =
        (SrvEvent.persistUser user ::
          ((deltas.filter (fun d => d ≠ [])).map SrvEvent.writeContent ++
            [SrvEvent.writeUpdate u, SrvEvent.persistDoc u,
              SrvEvent.persistAssistant (serverFull deltas)])) ++ [SrvEvent.writeDone] := by
      simp
    rw [hsplit, List.getLast?_concat]

/-- C3 witness: the amended ordering at a concrete turn carrying a
replacement block plus a trailing explanation delta. -/
theorem gateway_trace_order_witness :
    evIdx (SrvEvent.persistUser "edit".toList)
        (chatTurnTrace "edit".toList
          ["<<<DOCUMENT_UPDATE>>>x<<<END_UPDATE>>>".toList, " ok".toList]) = 0 ∧
    evIdx (SrvEvent.writeUpdate "x".toList)
        (chatTurnTrace "edit".toList
          ["<<<DOCUMENT_UPDATE>>>x<<<END_UPDATE>>>".toList, " ok".toList]) <
      evIdx (SrvEvent.persistDoc "x".toList)
        (chatTurnTrace "edit".toList
          ["<<<DOCUMENT_UPDATE>>>x<<<END_UPDATE>>>".toList, " ok".toList]) ∧
    evIdx (SrvEvent.persistDoc "x".toList)
        (chatTurnTrace "edit".toList
          ["<<<DOCUMENT_UPDATE>>>x<<<END_UPDATE>>>".toList, " ok".toList]) <
      evIdx SrvEvent.writeDone
        (chatTurnTrace "edit".toList
          ["<<<DOCUMENT_UPDATE>>>x<<<END_UPDATE>>>".toList, " ok".toList]) ∧
    evIdx (SrvEvent.persistAssistant (serverFull
          ["<<<DOCUMENT_UPDATE>>>x<<<END_UPDATE>>>".toList, " ok".toList]))
        (chatTurnTrace "edit".toList
          ["<<<DOCUMENT_UPDATE>>>x<<<END_UPDATE>>>".toList, " ok".toList]) <
      evIdx SrvEvent.writeDone
        (chatTurnTrace "edit".toList
          ["<<<DOCUMENT_UPDATE>>>x<<<END_UPDATE>>>".toList, " ok".toList]) ∧
    (chatTurnTrace "edit".toList
        ["<<<DOCUMENT_UPDATE>>>x<<<END_UPDATE>>>".toList, " ok".toList]).getLast? =
      some SrvEvent.writeDone :=
  gateway_trace_order "edit".toList
    ["<<<DOCUMENT_UPDATE>>>x<<<END_UPDATE>>>".toList, " ok".toList] "x".toList (by decide)

theorem getLast?_drop_of_lt {l : List Msg} :
    ∀ {k : Nat}, k < l.length → (l.drop k).getLast? = l.getLast? := by
  induction l with
  | nil => intro k h; simp at h
  | cons a t ih =>
    intro k h
    cases k with
    | zero => rfl
    | succ k =>
      rw [List.drop_succ_cons]
      have ht : t ≠ [] := by
        intro he
        subst he
        simp at h
      rw [ih (by simp only [List.length_cons] at h; omega)]
      rw [← List.singleton_append, List.getLast?_append_of_ne_nil _ ht]

/-! ### Claim C10 -/

/-- C10: the provider request contains the system prompt first, then
exactly the at-most-10 most recent persisted messages — the suffix
`stored.drop (stored.length - 10)` of the post-persist store
`prior ++ [user]` — whose length is `min 10 (prior.length + 1)`, whose
last element is the just-persisted user message, and which is a suffix
of the store, so every older message is excluded. -/
theorem provider_history_slice (sys user : Msg) (prior : List Msg) :
    (providerMessages sys (prior ++ [user])).head? = some sys ∧
    (providerMessages sys (prior ++ [user])).tail = sliceLast10 (prior ++ [user]) ∧
    (sliceLast10 (prior ++ [user])).length = min 10 (prior.length + 1) ∧
    (sliceLast10 (prior ++ [user])).getLast? = some user ∧
    sliceLast10 (prior ++ [user]) <:+ prior ++ [user] := by
  refine ⟨rfl, rfl, ?_, ?_, ?_⟩
  · unfold sliceLast10
    rw [List.length_drop]
    simp [List.length_append]
    omega
  · unfold sliceLast10
    have hlt : (prior ++ [user]).length - 10 < (prior ++ [user]).length := by
      simp [List.length_append]
      omega
    rw [getLast?_drop_of_lt hlt, List.getLast?_concat]
  · exact List.drop_suffix _ _

/-! ### Client turn lemmas and claims C4, C7, C8, C9 -/

theorem runLines_cons_ok {s s1 : TurnState} {l : Option FrameObj}
    (h : stepLine s l = Except.ok s1) (rest : List (Option FrameObj)) :
    runLines s (l :: rest) = runLines s1 rest := by
  conv_lhs => unfold runLines
  rw [h]

theorem runLines_cons_error {s s1 : TurnState} {l : Option FrameObj}
    (h : stepLine s l = Except.error s1) (rest : List (Option FrameObj)) :
    runLines s (l :: rest) = (s1, true) := by
  conv_lhs => unfold runLines
  rw [h]

theorem stepLine_messages (ts : TurnState) (l : Option FrameObj)
    (h : ∀ f, l = some f → f.done = false) :
    (outState (stepLine ts l)).cs.messages = ts.cs.messages := by
  cases l with
  | none => rfl
  | some f =>
    have hdone : f.done = false := h f rfl
    simp only [stepLine, hdone]
    by_cases h1 : f.content ≠ [] <;> by_cases h2 : f.documentUpdate ≠ [] <;>
      by_cases h3 : f.error ≠ [] <;> simp [h1, h2, h3, outState]

theorem runLines_messages :
    ∀ (lines : List (Option FrameObj)) (ts : TurnState),
      (∀ f : FrameObj, some f ∈ lines → f.done = false) →
      ((runLines ts lines).1).cs.messages = ts.cs.messages := by
  intro lines
  induction lines with
  | nil => intro ts _; rfl
  | cons l rest ih =>
    intro ts h
    have hl : ∀ f, l = some f → f.done = false := by
      intro f hf
      exact h f (hf ▸ List.mem_cons_self l rest)
    have hrest : ∀ f : FrameObj, some f ∈ rest → f.done = false := by
      intro f hf
      exact h f (List.mem_cons_of_mem l hf)
    have hstep := stepLine_messages ts l hl
    cases hsl : stepLine ts l with
    | ok s1 =>
      rw [hsl] at hstep
      rw [runLines_cons_ok hsl, ih s1 hrest]
      exact hstep
    | error s1 =>
      rw [hsl] at hstep
      rw [runLines_cons_error hsl]
      exact hstep

/-- C4: when the transport fails mid-stream (before any terminal frame
was processed), the `catch` path leaves the client disconnected, with an
empty live streaming buffer, with the optimistic user message still the
last entry of the history, no assistant message appended, and the
loading flag lowered by `finally`. -/
theorem transport_failure_state (st : ClientState) (userText : List Char)
    (lines : List (Option FrameObj))
    (hdone : ∀ f : FrameObj, some f ∈ lines → f.done = false) :
    (runTurn st userText lines true).isConnected = false ∧
    (runTurn st userText lines true).streamingContent = [] ∧
    (runTurn st userText lines true).messages =
      st.messages ++ [⟨Role.user, userText⟩] ∧
    (runTurn st userText lines true).isAiLoading = false := by
  have hmsg : ((runLines ⟨startTurn st userText, []⟩ lines).1).cs.messages =
      st.messages ++ [⟨Role.user, userText⟩] :=
    runLines_messages lines _ hdone
  have hrun : runTurn st userText lines true =
      { applyCatch ((runLines ⟨startTurn st userText, []⟩ lines).1).cs with
        isAiLoading := false } := by
    simp only [runTurn]
    rw [if_pos (Bool.or_true _)]
  rw [hrun]
  exact ⟨rfl, rfl, hmsg, rfl⟩

/-- C4 witness: a turn that received one delta and one keep-alive line
and then lost the connection. -/
theorem transport_failure_state_witness :
    (runTurn ⟨[], [], "doc".toList, true, false, true, 0⟩ "hi".toList
        [some ⟨"Hel".toList, [], false, []⟩, none] true).isConnected = false ∧
    (runTurn ⟨[], [], "doc".toList, true, false, true, 0⟩ "hi".toList
        [some ⟨"Hel".toList, [], false, []⟩, none] true).streamingContent = [] ∧
    (runTurn ⟨[], [], "doc".toList, true, false, true, 0⟩ "hi".toList
        [some ⟨"Hel".toList, [], false, []⟩, none] true).messages =
      [] ++ [⟨Role.user, "hi".toList⟩] ∧
    (runTurn ⟨[], [], "doc".toList, true, false, true, 0⟩ "hi".toList
        [some ⟨"Hel".toList, [], false, []⟩, none] true).isAiLoading = false :=
  transport_failure_state ⟨[], [], "doc".toList, true, false, true, 0⟩ "hi".toList
    [some ⟨"Hel".toList, [], false, []⟩, none]
    (by
      intro f hf
      rcases List.mem_cons.mp hf with h | h
      · injection h with h
        subst h
        rfl
      · simp at h)

/-- C7: a line whose payload fails `JSON.parse` (a `SyntaxError`) is
skipped wherever it occurs and the stream continues unchanged, while a
frame with a truthy `error` field throws: the run stops at that frame in
the error state, ignoring every later line. -/
theorem malformed_frame_tolerance :
    (∀ (s : TurnState) (xs ys : List (Option FrameObj)),
      runLines s (xs ++ none :: ys) = runLines s (xs ++ ys)) ∧
    (∀ (s : TurnState) (f : FrameObj) (rest : List (Option FrameObj)),
      f.error ≠ [] →
      runLines s (some f :: rest) = runLines s [some f] ∧
      (runLines s (some f :: rest)).2 = true) := by
  constructor
  · intro s xs
    induction xs generalizing s with
    | nil =>
      intro ys
      rfl
    | cons x xs ih =>
      intro ys
      cases hsl : stepLine s x with
      | ok s1 =>
        rw [List.cons_append, List.cons_append, runLines_cons_ok hsl,
          runLines_cons_ok hsl]
        exact ih s1 ys
      | error s1 =>
        rw [List.cons_append, List.cons_append, runLines_cons_error hsl,
          runLines_cons_error hsl]
  · intro s f rest he
    have hstep : ∃ s1, stepLine s (some f) = Except.error s1 := by
      simp only [stepLine]
      rw [if_pos he]
      exact ⟨_, rfl⟩
    rcases hstep with ⟨s1, hs1⟩
    rw [runLines_cons_error hs1, runLines_cons_error hs1]
    exact ⟨rfl, rfl⟩

/-- C7 witness: a keep-alive (unparseable) line between two deltas does
not change the run, and an `{error: ...}` frame terminates it in the
error state regardless of what follows. -/
theorem malformed_frame_tolerance_witness :
    runLines ⟨⟨[], [], [], true, true, true, 0⟩, []⟩
        ([some ⟨"a".toList, [], false, []⟩] ++ none ::
          [some ⟨"b".toList, [], false, []⟩]) =
      runLines ⟨⟨[], [], [], true, true, true, 0⟩, []⟩
        ([some ⟨"a".toList, [], false, []⟩] ++ [some ⟨"b".toList, [], false, []⟩]) ∧
    runLines ⟨⟨[], [], [], true, true, true, 0⟩, []⟩
        (some ⟨[], [], false, "boom".toList⟩ :: [some ⟨"c".toList, [], false, []⟩]) =
      runLines ⟨⟨[], [], [], true, true, true, 0⟩, []⟩
        [some ⟨[], [], false, "boom".toList⟩] ∧
    (runLines ⟨⟨[], [], [], true, true, true, 0⟩, []⟩
        (some ⟨[], [], false, "boom".toList⟩ :: [some ⟨"c".toList, [], false, []⟩])).2 =
      true :=
  ⟨malformed_frame_tolerance.1 _ [some ⟨"a".toList, [], false, []⟩]
      [some ⟨"b".toList, [], false, []⟩],
   (malformed_frame_tolerance.2 _ ⟨[], [], false, "boom".toList⟩
      [some ⟨"c".toList, [], false, []⟩] (by decide)).1,
   (malformed_frame_tolerance.2 _ ⟨[], [], false, "boom".toList⟩
      [some ⟨"c".toList, [], false, []⟩] (by decide)).2⟩

/-- C8 counterexample: with no backing document and a failing document
creation, `handleSendMessage` rejects (the `await` sits outside the
`try`/`catch`): the rejection escapes the controller unhandled
(`Except.error`), the state is returned unchanged — so, contrary to the
claim, no failure notification is shown (`toasts` stays 0). -/
theorem doc_creation_failure_cex :
    sendMessage ⟨[], [], [], true, false, false, 0⟩ false "hello".toList [] false =
      Except.error ⟨[], [], [], true, false, false, 0⟩ ∧
    (⟨[], [], [], true, false, false, 0⟩ : ClientState).toasts = 0 ∧
    (⟨[], [], [], true, false, false, 0⟩ : ClientState).messages = [] :=
  ⟨rfl, rfl, rfl⟩

/-- C8 amended: with no backing document, a failing creation rejects the
handler before any message is appended and before the loading flag is
raised (state unchanged, so the user can retry) — but the rejection
leaves the controller unhandled and no failure notification is shown;
a successful creation records the document id and proceeds with the
turn exactly as when a document already existed. -/
theorem doc_creation_failure_aborts (st : ClientState) (userText : List Char)
    (lines : List (Option FrameObj)) (transportFail : Bool) :
    sendMessage { st with hasDocId := false } false userText lines transportFail =
      Except.error { st with hasDocId := false } ∧
    sendMessage { st with hasDocId := false } true userText lines transportFail =
      Except.ok (runTurn { st with hasDocId := true } userText lines transportFail) :=
  ⟨rfl, rfl⟩

theorem runOps_cons_ok {s s1 : TurnState} {op : TurnOp}
    (h : stepOp s op = Except.ok s1) (rest : List TurnOp) :
    runOps s (op :: rest) = runOps s1 rest := by
  conv_lhs => unfold runOps
  rw [h]

theorem runOps_cons_error {s s1 : TurnState} {op : TurnOp}
    (h : stepOp s op = Except.error s1) (rest : List TurnOp) :
    runOps s (op :: rest) = (s1, true) := by
  conv_lhs => unfold runOps
  rw [h]

theorem runOps_append_of_ok :
    ∀ (a : List TurnOp) (s : TurnState) (b : List TurnOp),
      (runOps s a).2 = false → runOps s (a ++ b) = runOps (runOps s a).1 b := by
  intro a
  induction a with
  | nil => intro s b _; rfl
  | cons op a ih =>
    intro s b h
    cases hso : stepOp s op with
    | ok s1 =>
      rw [runOps_cons_ok hso] at h
      rw [List.cons_append, runOps_cons_ok hso, runOps_cons_ok hso]
      exact ih s1 b h
    | error s1 =>
      rw [runOps_cons_error hso] at h
      exact absurd h (by simp)

theorem stepOp_content {s : TurnState} {op : TurnOp}
    (h : opKeepsContent op = true) :
    (outState (stepOp s op)).cs.content = s.cs.content := by
  cases op with
  | manual v => exact absurd h (by simp [opKeepsContent])
  | line l =>
    cases l with
    | none => rfl
    | some f =>
      have hupd : f.documentUpdate = [] := by
        simpa [opKeepsContent, List.isEmpty_iff] using h
      simp only [stepOp, stepLine, hupd]
      by_cases h1 : f.content ≠ [] <;> by_cases h3 : f.done <;>
        by_cases h4 : f.error ≠ [] <;> simp [h1, h3, h4, outState]

theorem runOps_content :
    ∀ (ops : List TurnOp) (s : TurnState),
      (∀ op ∈ ops, opKeepsContent op = true) →
      ((runOps s ops).1).cs.content = s.cs.content := by
  intro ops
  induction ops with
  | nil => intro s _; rfl
  | cons op rest ih =>
    intro s h
    have hop : opKeepsContent op = true := h op (List.mem_cons_self _ _)
    have hrest : ∀ o ∈ rest, opKeepsContent o = true := by
      intro o ho
      exact h o (List.mem_cons_of_mem op ho)
    have hstep := stepOp_content (s := s) hop
    cases hso : stepOp s op with
    | ok s1 =>
      rw [hso] at hstep
      rw [runOps_cons_ok hso, ih s1 hrest]
      exact hstep
    | error s1 =>
      rw [hso] at hstep
      rw [runOps_cons_error hso]
      exact hstep

/-- C9 counterexample: a manual edit processed after the
`documentUpdate` frame but before the terminal frame (still during
`streaming`) is NOT overwritten by the AI replacement: the working copy
ends at the manual value, because the replacement is applied when its
frame is processed, not at terminal time. -/
theorem ai_replacement_cex :
    ((runOps ⟨⟨[], [], "old".toList, true, true, true, 0⟩, []⟩
        [TurnOp.line (some ⟨[], "<p>New</p>".toList, false, []⟩),
          TurnOp.manual "mine".toList,
          TurnOp.line (some ⟨[], [], true, []⟩)]).1).cs.content = "mine".toList ∧
    "mine".toList ≠ "<p>New</p>".toList := by
  exact ⟨rfl, by decide⟩

/-- C9 amended: the AI replacement overwrites every manual edit made
before its frame is processed: for any prefix of the turn that does not
throw (which may interleave manual edits and frames arbitrarily),
followed by the replacement frame, followed by steps none of which
writes the working content (frames without a truthy `documentUpdate`,
parse-failure lines — but no further manual edits), the working copy
ends at exactly the replacement text.  A manual edit processed after the
replacement frame wins instead (see the counterexample); the server
persists the replacement when it emits the frame (claim C3's trace). -/
theorem ai_replacement_last_writer (s : TurnState) (ops1 ops2 : List TurnOp)
    (f : FrameObj) (h1 : (runOps s ops1).2 = false) (hu : f.documentUpdate ≠ [])
    (he : f.error = [])
    (h2 : ∀ op ∈ ops2, opKeepsContent op = true) :
    ((runOps s (ops1 ++ TurnOp.line (some f) :: ops2)).1).cs.content =
      f.documentUpdate := by
  rw [runOps_append_of_ok ops1 s _ h1]
  have hstep : ∃ s2, stepLine (runOps s ops1).1 (some f) = Except.ok s2 ∧
      s2.cs.content = f.documentUpdate := by
    simp only [stepLine]
    rw [if_neg (by rw [he]; exact fun hh => hh rfl)]
    refine ⟨_, rfl, ?_⟩
    by_cases hc : f.content ≠ [] <;> by_cases hd : f.done <;> simp [hu, hc, hd]
  rcases hstep with ⟨s2, hs2, hcont⟩
  rw [runOps_cons_ok (show stepOp (runOps s ops1).1 (TurnOp.line (some f)) =
    Except.ok s2 from hs2), runOps_content ops2 s2 h2]
  exact hcont

/-- C9 witness: a manual edit and a delta before the replacement frame,
then a keep-alive line and the terminal frame after it — the working
copy ends at the replacement text. -/
theorem ai_replacement_last_writer_witness :
    ((runOps ⟨⟨[], [], "old".toList, true, true, true, 0⟩, []⟩
        ([TurnOp.manual "mine".toList, TurnOp.line (some ⟨"Sure".toList, [], false, []⟩)] ++
          TurnOp.line (some ⟨[], "<p>New</p>".toList, false, []⟩) ::
            [TurnOp.line none, TurnOp.line (some ⟨[], [], true, []⟩)])).1).cs.content =
      "<p>New</p>".toList :=
  ai_replacement_last_writer ⟨⟨[], [], "old".toList, true, true, true, 0⟩, []⟩
    [TurnOp.manual "mine".toList, TurnOp.line (some ⟨"Sure".toList, [], false, []⟩)]
    [TurnOp.line none, TurnOp.line (some ⟨[], [], true, []⟩)]
    ⟨[], "<p>New</p>".toList, false, []⟩ (by decide) (by decide) (by decide) (by decide)

/-! ### Debounce lemmas and claim C6 -/

theorem callsFor_append (fld : DbField) (a b : List PersistCall) :
    callsFor fld (a ++ b) = callsFor fld a ++ callsFor fld b :=
  List.filter_append a b

theorem callsFor_fireDue_ne {fld f : DbField} (h : ¬ f = fld) (t : Nat)
    (p : Option (Nat × List Char)) : callsFor fld (fireDue f t p) = [] := by
  cases p with
  | none => rfl
  | some dv =>
    rcases dv with ⟨d, v⟩
    simp only [fireDue]
    by_cases hd : d ≤ t
    · rw [if_pos hd]
      simp [callsFor, h]
    · rw [if_neg hd]
      rfl

theorem callsFor_fireDue_self (fld : DbField) (t : Nat)
    (p : Option (Nat × List Char)) : callsFor fld (fireDue fld t p) = fireDue fld t p := by
  cases p with
  | none => rfl
  | some dv =>
    rcases dv with ⟨d, v⟩
    simp only [fireDue]
    by_cases hd : d ≤ t
    · rw [if_pos hd]
      simp [callsFor]
    · rw [if_neg hd]
      rfl

theorem callsFor_pendingCall_ne {fld f : DbField} (h : ¬ f = fld)
    (p : Option (Nat × List Char)) : callsFor fld (pendingCall f p) = [] := by
  cases p with
  | none => rfl
  | some dv =>
    rcases dv with ⟨d, v⟩
    simp [pendingCall, callsFor, h]

theorem callsFor_pendingCall_self (fld : DbField) (p : Option (Nat × List Char)) :
    callsFor fld (pendingCall fld p) = pendingCall fld p := by
  cases p with
  | none => rfl
  | some dv =>
    rcases dv with ⟨d, v⟩
    simp [pendingCall, callsFor]

theorem coalesce_aux (fld : DbField) :
    ∀ (rest : List (Nat × List Char)) (t : Nat) (v : List Char) (cs : List PersistCall),
      List.Chain' (fun p q => q.1 < p.1 + window fld) ((t, v) :: rest) →
      List.foldl (onEdit true) (mkPending fld (some (t + window fld, v)) cs)
          (rest.map (fun p => Edit.mk p.1 fld p.2)) =
        mkPending fld (some ((rest.getLastD (t, v)).1 + window fld,
          (rest.getLastD (t, v)).2)) cs := by
  intro rest
  induction rest with
  | nil => intro t v cs _; rfl
  | cons p rest ih =>
    intro t v cs hch
    rcases p with ⟨t2, v2⟩
    have h12 : t2 < t + window fld := (List.chain'_cons.mp hch).1
    have hch2 := (List.chain'_cons.mp hch).2
    rw [List.map_cons, List.foldl_cons]
    have hstep : onEdit true (mkPending fld (some (t + window fld, v)) cs)
        (Edit.mk t2 fld v2) = mkPending fld (some (t2 + window fld, v2)) cs := by
      cases fld <;> simp [onEdit, mkPending, fireDue, Nat.not_le.mpr h12]
    rw [hstep, ih t2 v2 cs hch2, List.getLastD_cons]

theorem indep_aux (hasDoc : Bool) (fld : DbField) :
    ∀ (edits : List Edit) (st1 st2 : DebounceState),
      pendingOf fld st1 = pendingOf fld st2 →
      callsFor fld st1.calls = callsFor fld st2.calls →
      pendingOf fld (edits.foldl (onEdit hasDoc) st1) =
        pendingOf fld ((edits.filter (fun e => e.field = fld)).foldl
          (onEdit hasDoc) st2) ∧
      callsFor fld ((edits.foldl (onEdit hasDoc) st1).calls) =
        callsFor fld (((edits.filter (fun e => e.field = fld)).foldl
          (onEdit hasDoc) st2).calls) := by
  intro edits
  induction edits with
  | nil => intro st1 st2 h1 h2; exact ⟨h1, h2⟩
  | cons e rest ih =>
    intro st1 st2 h1 h2
    rcases e with ⟨t, f, v⟩
    by_cases hf : f = fld
    · subst hf
      rw [List.foldl_cons, List.filter_cons_of_pos (by simp), List.foldl_cons]
      apply ih
      · have e1 : pendingOf f (onEdit hasDoc st1 ⟨t, f, v⟩) =
            (if hasDoc then some (t + window f, v) else none) := by
          cases f <;> simp [onEdit, pendingOf]
        have e2 : pendingOf f (onEdit hasDoc st2 ⟨t, f, v⟩) =
            (if hasDoc then some (t + window f, v) else none) := by
          cases f <;> simp [onEdit, pendingOf]
        rw [e1, e2]
      · have e1 : (onEdit hasDoc st1 ⟨t, f, v⟩).calls =
            st1.calls ++ fireDue f t (pendingOf f st1) := by
          cases f <;> simp [onEdit, pendingOf]
        have e2 : (onEdit hasDoc st2 ⟨t, f, v⟩).calls =
            st2.calls ++ fireDue f t (pendingOf f st2) := by
          cases f <;> simp [onEdit, pendingOf]
        rw [e1, e2, callsFor_append, callsFor_append, h2, h1]
    · rw [List.foldl_cons, List.filter_cons_of_neg (by simp [hf])]
      apply ih
      · have e1 : pendingOf fld (onEdit hasDoc st1 ⟨t, f, v⟩) = pendingOf fld st1 := by
          cases f <;> cases fld <;>
            first
              | exact absurd rfl hf
              | simp [onEdit, pendingOf]
        rw [e1, h1]
      · have e1 : (onEdit hasDoc st1 ⟨t, f, v⟩).calls =
            st1.calls ++ fireDue f t (pendingOf f st1) := by
          cases f <;> simp [onEdit, pendingOf]
        rw [e1, callsFor_append, callsFor_fireDue_ne hf, List.append_nil, h2]

/-! ### Claim C6 -/

/-- C6: debounce coalescing.  Conjunct 1: a non-empty run of updates to
one field, each arriving strictly within that field's window of the
previous one, produces exactly one persistence call, firing one window
after the last update and carrying the last value.  Conjunct 2: two
updates separated by more than the window produce two separate calls,
each with its own value.  Conjunct 3: the two per-field timers are
independent — the calls belonging to a field are exactly the calls
produced by that field's own edit subsequence. -/
theorem debounce_coalescing :
    (∀ (fld : DbField) (t0 : Nat) (v0 : List Char) (rest : List (Nat × List Char)),
      List.Chain' (fun p q => q.1 < p.1 + window fld) ((t0, v0) :: rest) →
      runDebounce true (((t0, v0) :: rest).map (fun p => Edit.mk p.1 fld p.2)) =
        [⟨(rest.getLastD (t0, v0)).1 + window fld, fld, (rest.getLastD (t0, v0)).2⟩]) ∧
    (∀ (fld : DbField) (t1 : Nat) (v1 : List Char) (t2 : Nat) (v2 : List Char),
      t1 + window fld < t2 →
      runDebounce true [⟨t1, fld, v1⟩, ⟨t2, fld, v2⟩] =
        [⟨t1 + window fld, fld, v1⟩, ⟨t2 + window fld, fld, v2⟩]) ∧
    (∀ (hasDoc : Bool) (fld : DbField) (edits : List Edit),
      callsFor fld (runDebounce hasDoc edits) =
        callsFor fld (runDebounce hasDoc (edits.filter (fun e => e.field = fld)))) := by
  refine ⟨?_, ?_, ?_⟩
  · intro fld t0 v0 rest hch
    unfold runDebounce
    rw [List.map_cons, List.foldl_cons]
    have h0 : onEdit true ⟨none, none, []⟩ (Edit.mk t0 fld v0) =
        mkPending fld (some (t0 + window fld, v0)) [] := by
      cases fld <;> simp [onEdit, mkPending, fireDue]
    rw [h0, coalesce_aux fld rest t0 v0 [] hch]
    cases fld <;> simp [mkPending, pendingCall]
  · intro fld t1 v1 t2 v2 h
    have hle : t1 + window fld ≤ t2 := Nat.le_of_lt h
    cases fld <;>
      simp_all [runDebounce, onEdit, fireDue, pendingCall, window]
  · intro hasDoc fld edits
    rcases indep_aux hasDoc fld edits ⟨none, none, []⟩ ⟨none, none, []⟩ rfl rfl with
      ⟨hp, hc⟩
    unfold runDebounce
    rw [callsFor_append, callsFor_append, callsFor_append, callsFor_append, hc]
    cases fld with
    | content =>
      have hp' : (edits.foldl (onEdit hasDoc) ⟨none, none, []⟩).pendingContent =
          ((edits.filter (fun e => e.field = DbField.content)).foldl
            (onEdit hasDoc) ⟨none, none, []⟩).pendingContent := hp
      rw [hp', callsFor_pendingCall_self,
        callsFor_pendingCall_ne (by simp),
        callsFor_pendingCall_ne (by simp)]
    | title =>
      have hp' : (edits.foldl (onEdit hasDoc) ⟨none, none, []⟩).pendingTitle =
          ((edits.filter (fun e => e.field = DbField.title)).foldl
            (onEdit hasDoc) ⟨none, none, []⟩).pendingTitle := hp
      rw [hp', callsFor_pendingCall_self,
        callsFor_pendingCall_ne (by simp),
        callsFor_pendingCall_ne (by simp)]

/-- C6 witness: the spec's end-to-end scenario D — content edits at 0 ms
and 400 ms coalesce into one call at 1400 ms with the later value; edits
at 0 ms and 1100 ms produce two calls; and the content calls of a mixed
content/title run equal those of its content-only subsequence. -/
theorem debounce_coalescing_witness :
    runDebounce true
        (((0, "a".toList) :: [(400, "ab".toList)]).map
          (fun p => Edit.mk p.1 DbField.content p.2)) =
      [⟨([(400, "ab".toList)].getLastD (0, "a".toList)).1 + window DbField.content,
        DbField.content, ([(400, "ab".toList)].getLastD (0, "a".toList)).2⟩] ∧
    runDebounce true
        [⟨0, DbField.content, "x".toList⟩, ⟨1100, DbField.content, "y".toList⟩] =
      [⟨0 + window DbField.content, DbField.content, "x".toList⟩,
        ⟨1100 + window DbField.content, DbField.content, "y".toList⟩] ∧
    callsFor DbField.content (runDebounce true
        [⟨0, DbField.content, "a".toList⟩, ⟨100, DbField.title, "t".toList⟩]) =
      callsFor DbField.content (runDebounce true
        ([⟨0, DbField.content, "a".toList⟩, ⟨100, DbField.title, "t".toList⟩].filter
          (fun e => e.field = DbField.content))) :=
  ⟨debounce_coalescing.1 DbField.content 0 "a".toList [(400, "ab".toList)]
      (List.chain'_cons.mpr ⟨by simp [window], List.chain'_singleton _⟩),
   debounce_coalescing.2.1 DbField.content 0 "x".toList 1100 "y".toList
      (by simp [window]),
   debounce_coalescing.2.2 true DbField.content
      [⟨0, DbField.content, "a".toList⟩, ⟨100, DbField.title, "t".toList⟩]⟩

end DocCraft
